import Mathlib

/-!
Verification of the resilient multi-backend dispatch layer of Gura-Bot.

The Go sources are shallowly embedded: each Go method becomes a pure Lean
function on an explicit state record.  Machine integers (`int`) are modelled
as `Int` (no arithmetic here comes near overflow), `time.Time` timestamps as
`Int` numbers of seconds, and fallible Go returns as `Option`/`Except`.
Mutexes guard whole method bodies in the source, so each method is embedded
as one atomic state transformer.
-/

namespace GuraBot

/-! ## Failover handler (src/translate/common/failover.go) -/

/-- Configuration of a failover handler (src/translate/common/config.go,
fields used by failover.go). -/
structure FailoverConfig where
  MaxFailures : Int
  MaxDisableCycles : Int
  CooldownBaseSec : Int
deriving Repr, DecidableEq

/-- State of `GeneralFailoverHandler` (failover.go lines 16-28): the mutable
failover fields plus its immutable configuration.  `disableUntil` is a
timestamp in seconds. -/
structure GeneralFailoverHandler where
  failoverConfig : FailoverConfig
  failures : Int
  currentCooldownMultiplier : Int
  disableCycleCount : Int
  disableUntil : Int
  isPermanentlyDisabled : Bool
deriving Repr, DecidableEq

namespace GeneralFailoverHandler

/-- `resetState` (failover.go lines 54-60): reset all failover fields. -/
def resetState (gfh : GeneralFailoverHandler) : GeneralFailoverHandler :=
  { gfh with
    failures := 0
    currentCooldownMultiplier := 0
    disableCycleCount := 0
    isPermanentlyDisabled := false }

/-- `NewGeneralFailoverHandler` (failover.go lines 30-41): zero-valued fields,
then `resetState`. -/
def new (conf : FailoverConfig) : GeneralFailoverHandler :=
  resetState
    { failoverConfig := conf
      failures := 0
      currentCooldownMultiplier := 0
      disableCycleCount := 0
      disableUntil := 0
      isPermanentlyDisabled := false }

/-- `OnSuccess` (failover.go lines 43-50). -/
def OnSuccess (gfh : GeneralFailoverHandler) : GeneralFailoverHandler :=
  if gfh.failures > 0 ∨ gfh.currentCooldownMultiplier > 0 ∨ gfh.disableCycleCount > 0 then
    resetState gfh
  else
    gfh

/-- `OnFailure` (failover.go lines 66-92), with the current time passed
explicitly.  Returns the updated handler together with the `isDisabled`
result. -/
def OnFailure (now : Int) (gfh : GeneralFailoverHandler) :
    GeneralFailoverHandler × Bool :=
  let g := { gfh with failures := gfh.failures + 1 }
  if g.failures ≥ g.failoverConfig.MaxFailures then
    let g := { g with
      failures := 0
      currentCooldownMultiplier := g.currentCooldownMultiplier + 1
      disableCycleCount := g.disableCycleCount + 1 }
    if g.disableCycleCount ≥ g.failoverConfig.MaxDisableCycles then
      ({ g with isPermanentlyDisabled := true }, true)
    else
      ({ g with
          disableUntil :=
            now + g.currentCooldownMultiplier * g.failoverConfig.CooldownBaseSec },
        true)
  else
    (g, false)

/-- `IsDisabled` (failover.go lines 94-99), with the current time passed
explicitly. -/
def IsDisabled (now : Int) (gfh : GeneralFailoverHandler) : Bool :=
  gfh.isPermanentlyDisabled || decide (now < gfh.disableUntil)

end GeneralFailoverHandler

/-- The `OnFailure` contract exactly as the specification states it
(spec.md §4.1): increment `failures`; if `failures` reaches `maxFailures`,
reset `failures` to 0 and increment `cooldownMultiplier` and
`disableCycleCount`; if `disableCycleCount` then reaches `maxDisableCycles`,
set `permanentlyDisabled` and return true; otherwise set
`disableUntil = now + cooldownMultiplier * cooldownBaseSeconds` and return
true; if the failure threshold was not reached, leave the other fields
unchanged and return false. -/
def onFailureContract (now : Int) (gfh : GeneralFailoverHandler) :
    GeneralFailoverHandler × Bool :=
  if gfh.failures + 1 ≥ gfh.failoverConfig.MaxFailures then
    if gfh.disableCycleCount + 1 ≥ gfh.failoverConfig.MaxDisableCycles then
      ({ gfh with
          failures := 0
          currentCooldownMultiplier := gfh.currentCooldownMultiplier + 1
          disableCycleCount := gfh.disableCycleCount + 1
          isPermanentlyDisabled := true }, true)
    else
      ({ gfh with
          failures := 0
          currentCooldownMultiplier := gfh.currentCooldownMultiplier + 1
          disableCycleCount := gfh.disableCycleCount + 1
          disableUntil :=
            now + (gfh.currentCooldownMultiplier + 1) * gfh.failoverConfig.CooldownBaseSec },
        true)
  else
    ({ gfh with failures := gfh.failures + 1 }, false)

/-- Run a sequence of `OnFailure` calls (given by their timestamps) against a
failover handler; `IsDisabled` calls are pure reads and do not change state. -/
def runFailures (nows : List Int) (gfh : GeneralFailoverHandler) :
    GeneralFailoverHandler :=
  nows.foldl (fun s t => (GeneralFailoverHandler.OnFailure t s).1) gfh

/-- C2: `OnFailure` satisfies the spec's contract verbatim: it increments
`failures`; on reaching `maxFailures` it resets `failures`, increments
`cooldownMultiplier` and `disableCycleCount`, then either permanently
disables (on reaching `maxDisableCycles`) or sets the escalated cooldown
deadline, returning true; below the threshold it changes nothing else and
returns false. -/
theorem onFailure_meets_contract (now : Int) (gfh : GeneralFailoverHandler) :
    GeneralFailoverHandler.OnFailure now gfh = onFailureContract now gfh := by
  unfold GeneralFailoverHandler.OnFailure onFailureContract
  dsimp only

/-- A single `OnFailure` call never clears `isPermanentlyDisabled`. -/
theorem onFailure_preserves_perm (now : Int) (gfh : GeneralFailoverHandler)
    (h : gfh.isPermanentlyDisabled = true) :
    (GeneralFailoverHandler.OnFailure now gfh).1.isPermanentlyDisabled = true := by
  unfold GeneralFailoverHandler.OnFailure
  dsimp only
  split
  · split <;> simp [h]
  · simp [h]

/-- C3 counterexample: with `maxFailures = 1` and `maxDisableCycles = 1`, a
single `OnFailure` on a fresh handler permanently disables it, and the very
next `OnSuccess` resets `isPermanentlyDisabled` back to `false` (because
`resetState` clears it whenever any counter is nonzero).  The claimed
monotonicity therefore fails on the code. -/
theorem c3_perm_disabled_reset_by_success :
    ((GeneralFailoverHandler.new ⟨1, 1, 120⟩).OnFailure 0).1.isPermanentlyDisabled = true ∧
    ((GeneralFailoverHandler.new ⟨1, 1, 120⟩).OnFailure 0).1.OnSuccess.isPermanentlyDisabled
      = false := by
  constructor <;> rfl

/-- C3 (amended): `permanentlyDisabled` is monotonic along every sequence of
`OnFailure` and `IsDisabled` calls (`IsDisabled` is a pure read); it is only
an `OnSuccess` call — whose `resetState` clears all failover fields whenever
any counter is nonzero — that can reset it. -/
theorem perm_disabled_monotone_without_success (gfh : GeneralFailoverHandler)
    (h : gfh.isPermanentlyDisabled = true) (nows : List Int) :
    (runFailures nows gfh).isPermanentlyDisabled = true := by
  induction nows generalizing gfh with
  | nil => simpa [runFailures] using h
  | cons t ts ih =>
      simpa [runFailures] using ih _ (onFailure_preserves_perm t gfh h)

/-- Witness for the amended C3 theorem at a concrete permanently disabled
handler state and a concrete call sequence. -/
theorem perm_disabled_monotone_without_success_witness :
    (⟨⟨1, 1, 120⟩, 0, 1, 1, 0, true⟩ : GeneralFailoverHandler).isPermanentlyDisabled = true ∧
    (runFailures [5, 17] ⟨⟨1, 1, 120⟩, 0, 1, 1, 0, true⟩).isPermanentlyDisabled = true :=
  ⟨rfl, perm_disabled_monotone_without_success _ rfl [5, 17]⟩

/-- C8: `OnSuccess` leaves `disableUntil` unchanged; `IsDisabled` returns
exactly `permanentlyDisabled || now < disableUntil`; hence while a cooldown
window is still active (`now < disableUntil`), `IsDisabled` keeps returning
true even right after an `OnSuccess` that reset the counters. -/
theorem onSuccess_keeps_cooldown_window (gfh : GeneralFailoverHandler) (now : Int) :
    gfh.OnSuccess.disableUntil = gfh.disableUntil ∧
    gfh.IsDisabled now
      = (gfh.isPermanentlyDisabled || decide (now < gfh.disableUntil)) ∧
    (now < gfh.disableUntil → gfh.OnSuccess.IsDisabled now = true) := by
  refine ⟨?_, rfl, ?_⟩
  · unfold GeneralFailoverHandler.OnSuccess GeneralFailoverHandler.resetState
    split <;> rfl
  · intro h
    unfold GeneralFailoverHandler.IsDisabled GeneralFailoverHandler.OnSuccess
      GeneralFailoverHandler.resetState
    split <;> simp [h]

/-- Witness for C8 at a concrete handler in an active cooldown window. -/
theorem onSuccess_keeps_cooldown_window_witness :
    (3 : Int) < (100 : Int) ∧
    ((⟨⟨3, 6, 120⟩, 2, 1, 1, 100, false⟩ : GeneralFailoverHandler).OnSuccess.IsDisabled 3
      = true) :=
  ⟨by decide,
    (onSuccess_keeps_cooldown_window ⟨⟨3, 6, 120⟩, 2, 1, 1, 100, false⟩ 3).2.2 (by decide)⟩

/-! ## Weighted round-robin selector (src/selector/wrr.go) -/

/-- An item managed by a selector, as seen through the `WeightedItem`
interface (wrr.go lines 18-29): configured weight, current weight, disabled
flag and name.  The disabled flag is the value `IsDisabled()` reports during
the selector call. -/
structure WItem where
  name : String
  configWeight : Int
  currentWeight : Int
  disabled : Bool
deriving Repr, DecidableEq

/-- Default item used with `List.getD`-style lookups. -/
def ditem : WItem := ⟨"", 0, 0, false⟩

/-- `WeightedRoundRobinSelector` state (wrr.go lines 32-36). -/
structure WRRSelector where
  items : List WItem
  totalConfigWeight : Int
deriving Repr, DecidableEq

namespace WRRSelector

/-- `NewWeightedRoundRobinSelector` (wrr.go lines 39-44). -/
def new : WRRSelector := ⟨[], 0⟩

/-- `AddItem` (wrr.go lines 47-53). -/
def AddItem (s : WRRSelector) (it : WItem) : WRRSelector :=
  ⟨s.items ++ [it], s.totalConfigWeight + it.configWeight⟩

end WRRSelector

/-- The per-item weight update of one selection pass: a non-disabled item
gains its configured weight (wrr.go line 85), a disabled one is skipped
(wrr.go lines 79-82). -/
def updW (e : WItem) : WItem :=
  if e.disabled then e
  else { e with currentWeight := e.currentWeight + e.configWeight }

/-- The sWRR scan (wrr.go lines 76-92): walk the items with index `i`,
skipping disabled entries, adding `configWeight` to `currentWeight` of the
rest, and tracking `selectedIndex`/`maxCurrentWeight` (`selectedIndex == -1`
is modelled as `none`).  Returns the updated items and the final
`(selectedIndex, maxCurrentWeight)` pair. -/
def selectLoop : List WItem → Nat → Option Nat → Int → List WItem × Option Nat × Int
  | [], _, sel, mx => ([], sel, mx)
  | e :: rest, i, sel, mx =>
    if e.disabled then
      let r := selectLoop rest (i + 1) sel mx
      (e :: r.1, r.2)
    else
      let e2 := { e with currentWeight := e.currentWeight + e.configWeight }
      if sel = none ∨ mx < e2.currentWeight then
        let r := selectLoop rest (i + 1) (some i) e2.currentWeight
        (e2 :: r.1, r.2)
      else
        let r := selectLoop rest (i + 1) sel mx
        (e2 :: r.1, r.2)

/-- `Select` (wrr.go lines 57-111): empty registry fails; otherwise run the
scan; if nothing was eligible fail; otherwise subtract the registry's
`totalConfigWeight` from the selected item (wrr.go line 100) and store it
back (line 107).  The selected index is returned alongside the item so that
theorems can speak about which registered backend was picked. -/
def WRRSelector.Select (s : WRRSelector) : Option (Nat × WItem × WRRSelector) :=
  if s.items.length = 0 then none
  else
    let r := selectLoop s.items 0 none 0
    match r.2.1 with
    | none => none
    | some j =>
      match r.1[j]? with
      | none => none
      | some e =>
        let selItem := { e with currentWeight := e.currentWeight - s.totalConfigWeight }
        some (j, selItem, ⟨r.1.set j selItem, s.totalConfigWeight⟩)

/-- A registry built by registering the given items in order. -/
def mkSelector (its : List WItem) : WRRSelector :=
  its.foldl WRRSelector.AddItem WRRSelector.new

theorem foldl_addItem (its : List WItem) (s : WRRSelector) :
    its.foldl WRRSelector.AddItem s
      = ⟨s.items ++ its, s.totalConfigWeight + (its.map (fun e => e.configWeight)).sum⟩ := by
  induction its generalizing s with
  | nil => simp
  | cons e rest ih =>
      simp [List.foldl_cons, ih, WRRSelector.AddItem, add_assoc]

theorem mkSelector_eq (its : List WItem) :
    mkSelector its = ⟨its, (its.map (fun e => e.configWeight)).sum⟩ := by
  simp [mkSelector, foldl_addItem, WRRSelector.new]

theorem selectLoop_fst (l : List WItem) (i : Nat) (sel : Option Nat) (mx : Int) :
    (selectLoop l i sel mx).1 = l.map updW := by
  induction l generalizing i sel mx with
  | nil => rfl
  | cons e rest ih =>
      by_cases hd : e.disabled
      · simp [selectLoop, hd, ih, updW]
      · by_cases hc : (sel = none ∨ mx < e.currentWeight + e.configWeight)
        · simp [selectLoop, hd, hc, ih, updW]
        · simp [selectLoop, hd, hc, ih, updW]

theorem selectLoop_some_of_some (l : List WItem) (i j : Nat) (mx : Int) :
    ∃ j2, (selectLoop l i (some j) mx).2.1 = some j2 := by
  induction l generalizing i j mx with
  | nil => exact ⟨j, rfl⟩
  | cons e rest ih =>
      by_cases hd : e.disabled
      · simpa [selectLoop, hd] using ih (i + 1) j mx
      · by_cases hc : mx < e.currentWeight + e.configWeight
        · simpa [selectLoop, hd, hc] using ih (i + 1) i (e.currentWeight + e.configWeight)
        · simpa [selectLoop, hd, hc] using ih (i + 1) j mx

theorem selectLoop_none_iff (l : List WItem) (i : Nat) (mx : Int) :
    (selectLoop l i none mx).2.1 = none ↔ ∀ e ∈ l, e.disabled = true := by
  induction l generalizing i mx with
  | nil => simp [selectLoop]
  | cons e rest ih =>
      by_cases hd : e.disabled
      · simpa [selectLoop, hd] using ih (i + 1) mx
      · obtain ⟨j2, hj2⟩ :=
          selectLoop_some_of_some rest (i + 1) i (e.currentWeight + e.configWeight)
        simp [selectLoop, hd, hj2]

theorem selectLoop_sel_spec (l : List WItem) (b : Nat) (sel : Option Nat) (mx : Int)
    (j : Nat) (h : (selectLoop l b sel mx).2.1 = some j) :
    sel = some j ∨ ∃ p e, l[p]? = some e ∧ j = b + p ∧ e.disabled = false := by
  induction l generalizing b sel mx with
  | nil => exact Or.inl h
  | cons e rest ih =>
      have shift :
          (∃ p e2, rest[p]? = some e2 ∧ j = (b + 1) + p ∧ e2.disabled = false) →
          ∃ p e2, (e :: rest)[p]? = some e2 ∧ j = b + p ∧ e2.disabled = false := by
        rintro ⟨p, e2, hp, hj, hdis⟩
        exact ⟨p + 1, e2, by simpa using hp, by omega, hdis⟩
      by_cases hd : e.disabled
      · have h2 : (selectLoop rest (b + 1) sel mx).2.1 = some j := by
          simpa [selectLoop, hd] using h
        rcases ih (b + 1) sel mx h2 with h3 | h3
        · exact Or.inl h3
        · exact Or.inr (shift h3)
      · have hdf : e.disabled = false := by simpa using hd
        have self_case : some b = some j →
            ∃ p e2, (e :: rest)[p]? = some e2 ∧ j = b + p ∧ e2.disabled = false := by
          intro hbj
          have hbj2 : b = j := Option.some.inj hbj
          exact ⟨0, e, by simp, by omega, hdf⟩
        cases sel with
        | none =>
            have h2 : (selectLoop rest (b + 1) (some b)
                (e.currentWeight + e.configWeight)).2.1 = some j := by
              simpa [selectLoop, hd] using h
            rcases ih (b + 1) (some b) _ h2 with h3 | h3
            · exact Or.inr (self_case h3)
            · exact Or.inr (shift h3)
        | some j0 =>
            by_cases hc : mx < e.currentWeight + e.configWeight
            · have h2 : (selectLoop rest (b + 1) (some b)
                  (e.currentWeight + e.configWeight)).2.1 = some j := by
                simpa [selectLoop, hd, hc] using h
              rcases ih (b + 1) (some b) _ h2 with h3 | h3
              · exact Or.inr (self_case h3)
              · exact Or.inr (shift h3)
            · have h2 : (selectLoop rest (b + 1) (some j0) mx).2.1 = some j := by
                simpa [selectLoop, hd, hc] using h
              rcases ih (b + 1) (some j0) mx h2 with h3 | h3
              · exact Or.inl h3
              · exact Or.inr (shift h3)

/-- C6: one `Select()` call on a registry with at least one non-disabled item
adds `configWeight` to the `currentWeight` of every non-disabled item, leaves
every disabled item's `currentWeight` and everyone's `configWeight` (and the
disabled flags) unchanged, and subtracts the sum of configured weights of all
registered items — including disabled ones — from the selected item's
`currentWeight`.  The selected item itself is non-disabled. -/
theorem select_weight_update (its : List WItem)
    (h : ∃ e ∈ its, e.disabled = false) :
    ∃ j ej it s2,
      (mkSelector its).Select = some (j, it, s2) ∧
      its[j]? = some ej ∧ ej.disabled = false ∧
      it = { ej with currentWeight :=
        ej.currentWeight + ej.configWeight - (its.map (fun e => e.configWeight)).sum } ∧
      s2.items.length = its.length ∧
      s2.totalConfigWeight = (its.map (fun e => e.configWeight)).sum ∧
      s2.items[j]? = some it ∧
      (∀ p e, p ≠ j → its[p]? = some e →
        s2.items[p]? = some (if e.disabled then e
          else { e with currentWeight := e.currentWeight + e.configWeight })) := by
  obtain ⟨e0, he0, he0d⟩ := h
  have hne : its.length ≠ 0 := by
    intro hlen
    rw [List.length_eq_zero] at hlen
    subst hlen
    simp at he0
  have hnotall : ¬∀ e ∈ its, e.disabled = true := by
    intro hall
    have := hall e0 he0
    rw [he0d] at this
    exact Bool.false_ne_true this
  obtain ⟨j, hj⟩ : ∃ j, (selectLoop its 0 none 0).2.1 = some j := by
    cases hsel : (selectLoop its 0 none 0).2.1 with
    | none => exact absurd ((selectLoop_none_iff its 0 0).mp hsel) hnotall
    | some j => exact ⟨j, rfl⟩
  rcases selectLoop_sel_spec its 0 none 0 j hj with h3 | ⟨p, ej, hp, hjp, hejd⟩
  · exact absurd h3 (by simp)
  have hjeq : j = p := by omega
  subst hjeq
  have hjlt : j < its.length := by
    rcases List.getElem?_eq_some.mp hp with ⟨hlt, _⟩
    exact hlt
  have hmap : (selectLoop its 0 none 0).1[j]? = some (updW ej) := by
    rw [selectLoop_fst, List.getElem?_map, hp]
    rfl
  have hupdW : updW ej = { ej with currentWeight := ej.currentWeight + ej.configWeight } := by
    simp [updW, hejd]
  set T := (its.map (fun e => e.configWeight)).sum with hT
  have hSel : (mkSelector its).Select
      = some (j, { ej with currentWeight := ej.currentWeight + ej.configWeight - T },
        ⟨(its.map updW).set j
            { ej with currentWeight := ej.currentWeight + ej.configWeight - T }, T⟩) := by
    unfold WRRSelector.Select
    rw [mkSelector_eq, ← hT]
    dsimp only
    rw [if_neg hne, hj]
    dsimp only
    rw [hmap]
    dsimp only
    rw [selectLoop_fst, hupdW]
  refine ⟨j, ej, _, _, hSel, hp, hejd, rfl, ?_, rfl, ?_, ?_⟩
  · simp
  · rw [List.getElem?_set_eq_of_lt _ (by simpa using hjlt)]
  · intro p e hpj hpe
    rw [List.getElem?_set_ne (by omega), List.getElem?_map, hpe]
    by_cases hed : e.disabled
    · simp [updW, hed]
    · simp [updW, hed]

/-- Witness for C6 at a concrete registry with one disabled and one
non-disabled item. -/
theorem select_weight_update_witness :
    (∃ e ∈ [⟨"a", 2, 5, true⟩, ⟨"b", 1, 0, false⟩], WItem.disabled e = false) ∧
    (∃ j ej it s2,
      (mkSelector [⟨"a", 2, 5, true⟩, ⟨"b", 1, 0, false⟩]).Select = some (j, it, s2) ∧
      [(⟨"a", 2, 5, true⟩ : WItem), ⟨"b", 1, 0, false⟩][j]? = some ej ∧ ej.disabled = false ∧
      it = { ej with currentWeight :=
        ej.currentWeight + ej.configWeight
          - ([(⟨"a", 2, 5, true⟩ : WItem), ⟨"b", 1, 0, false⟩].map
              (fun e => e.configWeight)).sum } ∧
      s2.items.length = [(⟨"a", 2, 5, true⟩ : WItem), ⟨"b", 1, 0, false⟩].length ∧
      s2.totalConfigWeight = ([(⟨"a", 2, 5, true⟩ : WItem), ⟨"b", 1, 0, false⟩].map
          (fun e => e.configWeight)).sum ∧
      s2.items[j]? = some it ∧
      (∀ p e, p ≠ j → [(⟨"a", 2, 5, true⟩ : WItem), ⟨"b", 1, 0, false⟩][p]? = some e →
        s2.items[p]? = some (if e.disabled then e
          else { e with currentWeight := e.currentWeight + e.configWeight }))) :=
  ⟨⟨⟨"b", 1, 0, false⟩, by simp, rfl⟩,
    select_weight_update _ ⟨⟨"b", 1, 0, false⟩, by simp, rfl⟩⟩

/-! ## Ordered fallback selector (src/selector/fallback.go) -/

/-- `FallbackSelector` state (fallback.go lines 18-22): just the
insertion-ordered item list.  Items are the same records as for the WRR
selector (the `Item` interface needs only the disabled flag and name). -/
structure FallbackSelector where
  items : List WItem
deriving Repr, DecidableEq

namespace FallbackSelector

/-- `NewFallbackSelector` (fallback.go lines 25-31). -/
def new : FallbackSelector := ⟨[]⟩

/-- `AddItem` (fallback.go lines 35-41): append, preserving insertion
order. -/
def AddItem (s : FallbackSelector) (it : WItem) : FallbackSelector :=
  ⟨s.items ++ [it]⟩

/-- `Select` (fallback.go lines 46-72): error on an empty registry, otherwise
scan in order and return the first non-disabled item; error if every item is
disabled.  The scan performs no writes, so no updated state is returned. -/
def Select (s : FallbackSelector) : Option WItem :=
  if s.items.length = 0 then none
  else s.items.find? (fun e => !e.disabled)

end FallbackSelector

/-- C7: `FallbackSelector.Select` returns the first item in insertion order
whose disabled flag is false, touching no weight state (the embedding of the
scan is read-only), and returns an error (no item) exactly when the registry
is empty or every registered item is disabled. -/
theorem fallback_select_first_eligible (s : FallbackSelector) :
    (s.Select = none ↔ s.items = [] ∨ ∀ e ∈ s.items, e.disabled = true) ∧
    (∀ it, s.Select = some it →
      ∃ p : Nat, s.items[p]? = some it ∧ it.disabled = false ∧
        ∀ q (e : WItem), q < p → s.items[q]? = some e → e.disabled = true) := by
  constructor
  · unfold FallbackSelector.Select
    by_cases hlen : s.items.length = 0
    · rw [if_pos hlen]
      simp [List.length_eq_zero.mp hlen]
    · rw [if_neg hlen]
      rw [List.find?_eq_none]
      constructor
      · intro hall
        refine Or.inr (fun e he => ?_)
        have := hall e he
        simpa using this
      · rintro (hnil | hall)
        · exact absurd (congrArg List.length hnil) hlen
        · intro e he
          simp [hall e he]
  · intro it hit
    unfold FallbackSelector.Select at hit
    by_cases hlen : s.items.length = 0
    · rw [if_pos hlen] at hit
      exact absurd hit (by simp)
    · rw [if_neg hlen] at hit
      obtain ⟨hpa, p, hplt, hpe, hfirst⟩ := List.find?_eq_some_iff_getElem.mp hit
      refine ⟨p, by simp [List.getElem?_eq_getElem hplt, hpe], by simpa using hpa, ?_⟩
      intro q e hqp hqe
      have hqlt : q < s.items.length := lt_trans hqp hplt
      have hq := hfirst q hqp
      rw [List.getElem?_eq_getElem hqlt] at hqe
      have heq : s.items[q] = e := Option.some.inj hqe
      simpa [heq] using hq

/-- Witness for C7 at a concrete registry whose first item is disabled: the
selection hypothesis is discharged by computation and the theorem yields the
first-eligible description of item "b". -/
theorem fallback_select_first_eligible_witness :
    ∃ p : Nat, (⟨[⟨"a", 0, 0, true⟩, ⟨"b", 0, 0, false⟩, ⟨"c", 0, 0, false⟩]⟩ :
        FallbackSelector).items[p]? = some ⟨"b", 0, 0, false⟩ ∧
      (⟨"b", 0, 0, false⟩ : WItem).disabled = false ∧
      ∀ q (e : WItem), q < p →
        (⟨[⟨"a", 0, 0, true⟩, ⟨"b", 0, 0, false⟩, ⟨"c", 0, 0, false⟩]⟩ :
          FallbackSelector).items[q]? = some e → e.disabled = true :=
  (fallback_select_first_eligible
    ⟨[⟨"a", 0, 0, true⟩, ⟨"b", 0, 0, false⟩, ⟨"c", 0, 0, false⟩]⟩).2
    ⟨"b", 0, 0, false⟩ rfl

/-! ## Dispatch service retry loop (src/translate/translate.go) -/

/-- `TranslateResponse` (translate.go lines 48-55). -/
structure TranslateResponse where
  Text : String
  TranslatorName : String
  completionTokens : Int
  promptTokens : Int
deriving Repr, DecidableEq

/-- `CloneFrom` (translate.go lines 57-65): nil source is a no-op, otherwise
copy text, token usage and translator name. -/
def cloneFrom (resp : TranslateResponse) (tr : Option TranslateResponse) :
    TranslateResponse :=
  match tr with
  | none => resp
  | some t =>
      { resp with
        Text := t.Text
        completionTokens := t.completionTokens
        promptTokens := t.promptTokens
        TranslatorName := t.TranslatorName }

/-- The zero `TranslateResponse` allocated by `resp = &TranslateResponse{}`
(translate.go line 271). -/
def emptyResponse : TranslateResponse := ⟨"", "", 0, 0⟩

/-- What the service observes of the translator picked on one attempt: its
name (`GetName`) and the `(resp, err)` pair its `Translate` call produces. -/
structure SelectedTranslator where
  name : String
  resp : Option TranslateResponse
  err : Option String
deriving Repr, DecidableEq

/-- `ts.translate` (translate.go lines 264-280) on one attempt, abstracted
over the selector's outcome for that attempt: a selection error is wrapped
and returned with the named-return `resp` still nil; otherwise the zero
response is populated via `CloneFrom`, `TranslatorName` is overwritten with
the selected translator's name, and the translator's error is passed up. -/
def translateOnce (sel : Except String SelectedTranslator) :
    Option TranslateResponse × Option String :=
  match sel with
  | .error msg => (none, some ("error on select translator: " ++ msg))
  | .ok tr =>
      let resp := cloneFrom emptyResponse tr.resp
      let resp := { resp with TranslatorName := tr.name }
      (some resp, tr.err)

/-- Result of the `Translate` retry loop.  `panicked` records that the Go
code dereferenced the nil `resp` pointer (`resp.TranslatorName` in
translate.go line 258) instead of producing a value. -/
structure TranslateOutcome where
  attempts : Nat
  resp : Option TranslateResponse
  err : Option String
  panicked : Bool
deriving Repr, DecidableEq

/-- The retry loop of `Translate` (translate.go lines 244-262).  `retry` is
the Go loop counter; `fuel` carries `maxmiumRetry - retry` so that the Go
guard `retry >= ts.maxmiumRetry` is exactly `fuel = 0` (both count the
remaining retries, and a non-positive `maxmiumRetry` gives zero fuel
immediately).  On an error with retries remaining, the Go code logs
`resp.TranslatorName` before sleeping and retrying; when `resp` is nil that
line panics, modelled by the `panicked` outcome. -/
def translateLoop (sel : Nat → Except String SelectedTranslator) :
    Nat → Nat → TranslateOutcome
  | retry, fuel =>
    let r := translateOnce (sel retry)
    match r.2 with
    | none => ⟨retry + 1, r.1, none, false⟩
    | some e =>
      match fuel with
      | 0 => ⟨retry + 1, r.1, some e, false⟩
      | fuel + 1 =>
        match r.1 with
        | none => ⟨retry + 1, none, some e, true⟩
        | some _ => translateLoop sel (retry + 1) fuel

/-- `Translate` (translate.go lines 244-262): run the loop from `retry = 0`
with the configured maximum retry count, abstracted over the per-attempt
selection outcome. -/
def Translate (maxmiumRetry : Int) (sel : Nat → Except String SelectedTranslator) :
    TranslateOutcome :=
  translateLoop sel 0 maxmiumRetry.toNat

/-- C4: with `maxRetries = 2` and a selector that always yields a backend
whose invocation always fails, `Translate` makes exactly 3 attempts, does not
panic, and returns the last attempt's error together with a response naming
the last-tried backend. -/
theorem retry_exhaustion (tr : Nat → SelectedTranslator) (errs : Nat → String)
    (h : ∀ n, (tr n).err = some (errs n)) :
    ∃ r, Translate 2 (fun n => .ok (tr n)) = ⟨3, some r, some (errs 2), false⟩ ∧
      r.TranslatorName = (tr 2).name := by
  refine ⟨{ cloneFrom emptyResponse (tr 2).resp with TranslatorName := (tr 2).name },
    ?_, rfl⟩
  show translateLoop (fun n => .ok (tr n)) 0 2 = _
  rw [translateLoop]
  simp only [translateOnce, h 0]
  rw [translateLoop]
  simp only [translateOnce, h 1]
  rw [translateLoop]
  simp only [translateOnce, h 2]

/-- Witness for C4 with a concrete always-failing backend. -/
theorem retry_exhaustion_witness :
    (∀ _n : Nat, (SelectedTranslator.mk "be" none (some "boom")).err = some "boom") ∧
    ∃ r, Translate 2 (fun _ => .ok (SelectedTranslator.mk "be" none (some "boom")))
        = ⟨3, some r, some "boom", false⟩ ∧
      r.TranslatorName = (SelectedTranslator.mk "be" none (some "boom")).name :=
  ⟨fun _ => rfl,
    retry_exhaustion (fun _ => SelectedTranslator.mk "be" none (some "boom"))
      (fun _ => "boom") (fun _ => rfl)⟩

/-- C10: when `Select()` fails on an attempt, `translate` returns a nil
`resp`; if retries remain (`fuel > 0`) the retry branch reads
`resp.TranslatorName` through that nil pointer and the loop panics, while
with no retries remaining the selection error is returned cleanly.  At the
service level, a first-attempt selection failure panics whenever
`maxmiumRetry ≥ 1` and is returned cleanly whenever `maxmiumRetry ≤ 0`. -/
theorem select_failure_nil_deref (sel : Nat → Except String SelectedTranslator)
    (msg : String) :
    (∀ retry fuel, sel retry = .error msg → 0 < fuel →
      (translateLoop sel retry fuel).panicked = true) ∧
    (∀ retry, sel retry = .error msg →
      translateLoop sel retry 0
        = ⟨retry + 1, none, some ("error on select translator: " ++ msg), false⟩) ∧
    (∀ maxmiumRetry : Int, sel 0 = .error msg → 1 ≤ maxmiumRetry →
      (Translate maxmiumRetry sel).panicked = true) := by
  have hloop : ∀ retry fuel, sel retry = .error msg → 0 < fuel →
      (translateLoop sel retry fuel).panicked = true := by
    intro retry fuel h hf
    obtain ⟨f, rfl⟩ : ∃ f, fuel = f + 1 := ⟨fuel - 1, by omega⟩
    rw [translateLoop]
    simp [translateOnce, h]
  refine ⟨hloop, ?_, ?_⟩
  · intro retry h
    rw [translateLoop]
    simp [translateOnce, h]
  · intro mR h hmR
    exact hloop 0 mR.toNat h (by omega)

/-- Witness for C10 at a concrete failing selector and `maxmiumRetry = 2`. -/
theorem select_failure_nil_deref_witness :
    ((fun _ : Nat => (.error "no available item" : Except String SelectedTranslator)) 0
        = .error "no available item") ∧
    (1 : Int) ≤ 2 ∧
    (Translate 2 (fun _ => .error "no available item")).panicked = true :=
  ⟨rfl, by decide,
    (select_failure_nil_deref (fun _ => .error "no available item")
      "no available item").2.2 2 rfl (by decide)⟩

/-! ## Non-retryable (weak) error classification in the dispatch loop -/

/-- Outcome of the spec-modelled filtered dispatch loop: total attempts, the
final result and the backend's failover handler state. -/
structure DispatchOutcome where
  attempts : Nat
  result : Except String String
  handler : GeneralFailoverHandler
deriving Repr

/-- Modelled from the spec: the dispatch retry loop that consults the
caller-supplied non-retryable filter is code of this repository that is not
under src/ — the `WeakError` filter (`CheckWeakError`,
src/translate/translator.go lines 254-271) has no caller in src/, and the
loop in src/translate/translate.go predates it.  Following spec.md §4.5:
each attempt invokes the selected backend; on success report `OnSuccess` and
return; on failure, if the caller-supplied filter classifies the error as
non-retryable, return it to the caller without recording the failure against
the Failover Handler and without consuming a retry; otherwise record
`OnFailure` and, while attempts remain, retry. -/
def dispatchLoop (nonRetryable : String → Bool)
    (invoke : Nat → Except String String) (now : Int) :
    GeneralFailoverHandler → Nat → Nat → DispatchOutcome
  | h, retry, fuel =>
    match invoke retry with
    | .ok r => ⟨retry + 1, .ok r, h.OnSuccess⟩
    | .error e =>
      if nonRetryable e then ⟨retry + 1, .error e, h⟩
      else
        let h2 := (h.OnFailure now).1
        match fuel with
        | 0 => ⟨retry + 1, .error e, h2⟩
        | fuel + 1 => dispatchLoop nonRetryable invoke now h2 (retry + 1) fuel

/-- C5: whenever a backend error is classified non-retryable by the
caller-supplied filter, the dispatch loop returns it immediately: the
backend's failover handler is left exactly as it was (the failure is not
recorded) and the attempt count shows this attempt was the last (no retry is
consumed), regardless of how many retries remained. -/
theorem nonretryable_skips_failover_and_retry (nonRetryable : String → Bool)
    (invoke : Nat → Except String String) (now : Int)
    (h : GeneralFailoverHandler) (retry fuel : Nat) (e : String)
    (hinv : invoke retry = .error e) (hnr : nonRetryable e = true) :
    dispatchLoop nonRetryable invoke now h retry fuel = ⟨retry + 1, .error e, h⟩ := by
  rw [dispatchLoop]
  simp [hinv, hnr]

/-- Witness for C5 at a concrete weak-error attempt. -/
theorem nonretryable_skips_failover_and_retry_witness :
    ((fun _ : Nat => (.error "weak" : Except String String)) 0 = .error "weak") ∧
    ((fun s => s = "weak" : String → Bool) "weak" = true) ∧
    dispatchLoop (fun s => s = "weak") (fun _ => .error "weak") 0
        (GeneralFailoverHandler.new ⟨3, 6, 120⟩) 0 5
      = ⟨1, .error "weak", GeneralFailoverHandler.new ⟨3, 6, 120⟩⟩ :=
  ⟨rfl, by simp,
    nonretryable_skips_failover_and_retry (fun s => s = "weak")
      (fun _ => .error "weak") 0 (GeneralFailoverHandler.new ⟨3, 6, 120⟩) 0 5 "weak"
      rfl (by simp)⟩

/-! ## sWRR scan on fully-enabled registries: first-argmax characterization -/

theorem selectLoop_nodis_go (l : List WItem) (hnd : ∀ e ∈ l, e.disabled = false)
    (b j0 : Nat) (m : Int) :
    ∃ sel2 m2, (selectLoop l b (some j0) m).2 = (some sel2, m2) ∧ m ≤ m2 ∧
      (∀ (p : Nat) (e : WItem), l[p]? = some e → e.currentWeight + e.configWeight ≤ m2) ∧
      ((sel2 = j0 ∧ m2 = m) ∨
        (∃ (q : Nat) (eq2 : WItem), l[q]? = some eq2 ∧ sel2 = b + q ∧
          m2 = eq2.currentWeight + eq2.configWeight ∧ m < m2 ∧
          (∀ (p : Nat) (e : WItem), p < q → l[p]? = some e →
            e.currentWeight + e.configWeight < m2))) := by
  induction l generalizing b j0 m with
  | nil =>
      refine ⟨j0, m, rfl, le_refl m, ?_, Or.inl ⟨rfl, rfl⟩⟩
      intro p e hp
      simp at hp
  | cons e rest ih =>
      have hd : e.disabled = false := hnd e (List.mem_cons_self e rest)
      have hnd2 : ∀ x ∈ rest, x.disabled = false :=
        fun x hx => hnd x (List.mem_cons_of_mem e hx)
      have hdne : ¬e.disabled = true := by simp [hd]
      by_cases hc : m < e.currentWeight + e.configWeight
      · obtain ⟨sel2, m2, heq, hle, hub, hdisj⟩ :=
          ih hnd2 (b + 1) b (e.currentWeight + e.configWeight)
        have hred : (selectLoop (e :: rest) b (some j0) m).2
            = (selectLoop rest (b + 1) (some b) (e.currentWeight + e.configWeight)).2 := by
          simp [selectLoop, hdne, hc]
        refine ⟨sel2, m2, by rw [hred, heq], le_of_lt (lt_of_lt_of_le hc hle), ?_, ?_⟩
        · intro p x hp
          cases p with
          | zero =>
              have hx : x = e := by simpa using hp.symm
              subst hx
              exact hle
          | succ p => exact hub p x (by simpa using hp)
        · rcases hdisj with ⟨hsel, hm2⟩ | ⟨q, eq2, hq, hsel, hm2, hlt, hstrict⟩
          · refine Or.inr ⟨0, e, by simp, by omega, by rw [hm2], by rw [hm2]; exact hc, ?_⟩
            intro p x hp
            omega
          · refine Or.inr ⟨q + 1, eq2, by simpa using hq, by omega, hm2, lt_trans hc hlt, ?_⟩
            intro p x hpq hp
            cases p with
            | zero =>
                have hx : x = e := by simpa using hp.symm
                subst hx
                exact hlt
            | succ p => exact hstrict p x (by omega) (by simpa using hp)
      · obtain ⟨sel2, m2, heq, hle, hub, hdisj⟩ := ih hnd2 (b + 1) j0 m
        have hred : (selectLoop (e :: rest) b (some j0) m).2
            = (selectLoop rest (b + 1) (some j0) m).2 := by
          simp [selectLoop, hdne, hc]
        refine ⟨sel2, m2, by rw [hred, heq], hle, ?_, ?_⟩
        · intro p x hp
          cases p with
          | zero =>
              have hx : x = e := by simpa using hp.symm
              subst hx
              omega
          | succ p => exact hub p x (by simpa using hp)
        · rcases hdisj with ⟨hsel, hm2⟩ | ⟨q, eq2, hq, hsel, hm2, hlt, hstrict⟩
          · exact Or.inl ⟨hsel, hm2⟩
          · refine Or.inr ⟨q + 1, eq2, by simpa using hq, by omega, hm2, hlt, ?_⟩
            intro p x hpq hp
            cases p with
            | zero =>
                have hx : x = e := by simpa using hp.symm
                subst hx
                omega
            | succ p => exact hstrict p x (by omega) (by simpa using hp)

theorem selectLoop_nodis (l : List WItem) (hne : l ≠ [])
    (hnd : ∀ e ∈ l, e.disabled = false) :
    ∃ (j : Nat) (ej : WItem), l[j]? = some ej ∧
      (selectLoop l 0 none 0).2 = (some j, ej.currentWeight + ej.configWeight) ∧
      (∀ (p : Nat) (e : WItem), l[p]? = some e →
        e.currentWeight + e.configWeight ≤ ej.currentWeight + ej.configWeight) ∧
      (∀ (p : Nat) (e : WItem), p < j → l[p]? = some e →
        e.currentWeight + e.configWeight < ej.currentWeight + ej.configWeight) := by
  cases l with
  | nil => exact absurd rfl hne
  | cons e rest =>
      have hd : e.disabled = false := hnd e (List.mem_cons_self e rest)
      have hnd2 : ∀ x ∈ rest, x.disabled = false :=
        fun x hx => hnd x (List.mem_cons_of_mem e hx)
      have hdne : ¬e.disabled = true := by simp [hd]
      obtain ⟨sel2, m2, heq, hle, hub, hdisj⟩ :=
        selectLoop_nodis_go rest hnd2 1 0 (e.currentWeight + e.configWeight)
      have hred : (selectLoop (e :: rest) 0 none 0).2
          = (selectLoop rest 1 (some 0) (e.currentWeight + e.configWeight)).2 := by
        simp [selectLoop, hdne]
      rcases hdisj with ⟨hsel, hm2⟩ | ⟨q, eq2, hq, hsel, hm2, hlt, hstrict⟩
      · refine ⟨0, e, by simp, ?_, ?_, ?_⟩
        · rw [hred, heq, hsel, hm2]
        · intro p x hp
          cases p with
          | zero =>
              have hx : x = e := by simpa using hp.symm
              subst hx
              exact le_refl _
          | succ p =>
              have := hub p x (by simpa using hp)
              omega
        · intro p x hp
          omega
      · refine ⟨q + 1, eq2, by simpa using hq, ?_, ?_, ?_⟩
        · rw [hred, heq, hsel, hm2, Nat.add_comm 1 q]
        · intro p x hp
          cases p with
          | zero =>
              have hx : x = e := by simpa using hp.symm
              subst hx
              rw [hm2] at hlt
              exact le_of_lt hlt
          | succ p =>
              have := hub p x (by simpa using hp)
              omega
        · intro p x hpq hp
          cases p with
          | zero =>
              have hx : x = e := by simpa using hp.symm
              subst hx
              rw [hm2] at hlt
              exact hlt
          | succ p =>
              have := hstrict p x (by omega) (by simpa using hp)
              omega

/-- One `Select()` on a fully-enabled, nonempty registry: it succeeds, picks
the first index maximizing the updated current weight (strictly greater than
every earlier item's, at least every later item's), and produces the updated
registry. -/
theorem select_nodis (s : WRRSelector) (hne : s.items ≠ [])
    (hnd : ∀ e ∈ s.items, e.disabled = false) :
    ∃ (j : Nat) (ej : WItem), s.items[j]? = some ej ∧
      s.Select = some (j,
        { ej with currentWeight :=
            ej.currentWeight + ej.configWeight - s.totalConfigWeight },
        ⟨(s.items.map updW).set j
            { ej with currentWeight :=
                ej.currentWeight + ej.configWeight - s.totalConfigWeight },
          s.totalConfigWeight⟩) ∧
      (∀ (p : Nat) (e : WItem), s.items[p]? = some e →
        e.currentWeight + e.configWeight ≤ ej.currentWeight + ej.configWeight) ∧
      (∀ (p : Nat) (e : WItem), p < j → s.items[p]? = some e →
        e.currentWeight + e.configWeight < ej.currentWeight + ej.configWeight) := by
  obtain ⟨j, ej, hp, hpair, hub, hstrict⟩ := selectLoop_nodis s.items hne hnd
  have hejd : ej.disabled = false := hnd ej (List.getElem?_mem hp)
  have hlen0 : ¬s.items.length = 0 := by
    intro h0
    exact hne (List.length_eq_zero.mp h0)
  have hj : (selectLoop s.items 0 none 0).2.1 = some j := by rw [hpair]
  have hmap : (selectLoop s.items 0 none 0).1[j]? = some (updW ej) := by
    rw [selectLoop_fst, List.getElem?_map, hp]
    rfl
  have hupdW : updW ej
      = { ej with currentWeight := ej.currentWeight + ej.configWeight } := by
    simp [updW, hejd]
  refine ⟨j, ej, hp, ?_, hub, hstrict⟩
  unfold WRRSelector.Select
  dsimp only
  rw [if_neg hlen0, hj]
  dsimp only
  rw [hmap]
  dsimp only
  rw [selectLoop_fst, hupdW]

/-! ## WRR dynamics on a weights-only registry -/

/-- A fresh item with the given configured weight, zero current weight and no
disablement, as registered by `AddItem` for the fairness scenario. -/
def mkWItem (w : Int) : WItem := ⟨"", w, 0, false⟩

/-- The registry of C1/C9: one item per configured weight, registered in
order. -/
def wrrRegistry (ws : List Int) : WRRSelector := mkSelector (ws.map mkWItem)

/-- Take one `Select()` step (the failure case keeps the state; it is never
reached on a fully-enabled registry). -/
def stepWRR (s : WRRSelector) : WRRSelector :=
  match s.Select with
  | some r => r.2.2
  | none => s

/-- The registry after `t` consecutive `Select()` calls. -/
def wrrRun (ws : List Int) : Nat → WRRSelector
  | 0 => wrrRegistry ws
  | t + 1 => stepWRR (wrrRun ws t)

/-- The index selected by the `t`-th `Select()` call (0 if selection fails,
which never happens on a fully-enabled registry). -/
def wrrSelIdx (ws : List Int) (t : Nat) : Nat :=
  match (wrrRun ws t).Select with
  | some r => r.1
  | none => 0

/-- How many of the first `t` `Select()` calls returned item `i`. -/
def selCount (ws : List Int) (i t : Nat) : Nat :=
  ((Finset.range t).filter (fun s => wrrSelIdx ws s = i)).card

theorem selCount_succ (ws : List Int) (i t : Nat) :
    selCount ws i (t + 1)
      = selCount ws i t + (if wrrSelIdx ws t = i then 1 else 0) := by
  unfold selCount
  rw [Finset.range_succ, Finset.filter_insert]
  split
  · rw [Finset.card_insert_of_not_mem (by simp)]
  · rfl

theorem sum_range_getD (ws : List Int) :
    (∑ p ∈ Finset.range ws.length, ws.getD p 0) = ws.sum := by
  induction ws with
  | nil => simp
  | cons w rest ih =>
      rw [List.length_cons, Finset.sum_range_succ']
      simp only [List.getD_cons_succ, List.getD_cons_zero]
      rw [ih, List.sum_cons, add_comm]

theorem getD_getElem? (ws : List Int) (p : Nat) (h : p < ws.length) :
    ws[p]? = some (ws.getD p 0) := by
  rw [List.getD_eq_getElem?_getD, List.getElem?_eq_getElem h]
  rfl

/-- Closed form of the registry after `t` selections on the C1 registry:
the configured weights and total never change, nothing is disabled, and item
`p`'s current weight is `t*w_p - totalWeight * (times p was selected)`. -/
theorem wrrRun_items (ws : List Int) (hne : ws ≠ []) (t : Nat) :
    (wrrRun ws t).totalConfigWeight = ws.sum ∧
    (wrrRun ws t).items.length = ws.length ∧
    ∀ (p : Nat) (w : Int), ws[p]? = some w →
      (wrrRun ws t).items[p]? =
        some ⟨"", w, (t : Int) * w - ws.sum * (selCount ws p t : Int), false⟩ := by
  induction t with
  | zero =>
      refine ⟨?_, ?_, ?_⟩
      · show (wrrRegistry ws).totalConfigWeight = ws.sum
        rw [wrrRegistry, mkSelector_eq]
        dsimp only
        rw [List.map_map]
        have hcomp : ((fun e : WItem => e.configWeight) ∘ mkWItem) = id := rfl
        rw [hcomp, List.map_id]
      · show (wrrRegistry ws).items.length = ws.length
        rw [wrrRegistry, mkSelector_eq]
        simp
      · intro p w hp
        show (wrrRegistry ws).items[p]? = _
        rw [wrrRegistry, mkSelector_eq]
        dsimp only
        rw [List.getElem?_map, hp]
        have hc0 : selCount ws p 0 = 0 := rfl
        rw [hc0]
        rw [Option.map_some', Option.some.injEq, mkWItem, WItem.mk.injEq]
        refine ⟨rfl, rfl, by push_cast; ring, rfl⟩
  | succ t ih =>
      obtain ⟨htot, hlen, hitems⟩ := ih
      have hlne : (wrrRun ws t).items ≠ [] := by
        intro h0
        have hl0 := congrArg List.length h0
        rw [hlen] at hl0
        simp only [List.length_nil] at hl0
        exact hne (List.length_eq_zero.mp hl0)
      have hnd : ∀ e ∈ (wrrRun ws t).items, e.disabled = false := by
        intro e he
        obtain ⟨p, hp⟩ := List.mem_iff_getElem?.mp he
        have hplt : p < (wrrRun ws t).items.length := (List.getElem?_eq_some.mp hp).1
        rw [hlen] at hplt
        have h5 := hitems p (ws.getD p 0) (getD_getElem? ws p hplt)
        rw [hp] at h5
        rw [Option.some.inj h5]
      obtain ⟨j, ej, hpj, hSel, hub, hstrict⟩ := select_nodis (wrrRun ws t) hlne hnd
      have hjlt : j < ws.length := by
        have h6 := (List.getElem?_eq_some.mp hpj).1
        rw [hlen] at h6
        exact h6
      have hwj := getD_getElem? ws j hjlt
      have hej : ej = ⟨"", ws.getD j 0,
          (t : Int) * ws.getD j 0 - ws.sum * (selCount ws j t : Int), false⟩ := by
        have h5 := hitems j (ws.getD j 0) hwj
        rw [hpj] at h5
        exact Option.some.inj h5
      have hselIdx : wrrSelIdx ws t = j := by
        unfold wrrSelIdx
        rw [hSel]
      have hstep : wrrRun ws (t + 1)
          = ⟨((wrrRun ws t).items.map updW).set j
              { ej with currentWeight :=
                  ej.currentWeight + ej.configWeight - (wrrRun ws t).totalConfigWeight },
            (wrrRun ws t).totalConfigWeight⟩ := by
        show stepWRR (wrrRun ws t) = _
        unfold stepWRR
        rw [hSel]
      refine ⟨?_, ?_, ?_⟩
      · rw [hstep]
        exact htot
      · rw [hstep]
        dsimp only
        rw [List.length_set, List.length_map]
        exact hlen
      · intro p w hp
        have hplt : p < ws.length := (List.getElem?_eq_some.mp hp).1
        have hitp := hitems p w hp
        rw [hstep]
        dsimp only
        by_cases hpj2 : p = j
        · subst hpj2
          have hwEq : ws.getD p 0 = w := by
            rw [hp] at hwj
            exact (Option.some.inj hwj).symm
          rw [List.getElem?_set_eq_of_lt _ (by rw [List.length_map, hlen]; exact hplt)]
          rw [hej, htot, selCount_succ, hselIdx, hwEq]
          have hife : (if p = p then (1 : Nat) else 0) = 1 := if_pos rfl
          rw [hife]
          dsimp only
          rw [Option.some.injEq, WItem.mk.injEq]
          refine ⟨rfl, rfl, ?_, rfl⟩
          push_cast
          ring
        · rw [List.getElem?_set_ne (fun h => hpj2 h.symm)]
          rw [List.getElem?_map, hitp]
          rw [selCount_succ, hselIdx]
          have hifn : (if j = p then (1 : Nat) else 0) = 0 :=
            if_neg (fun h => hpj2 h.symm)
          rw [hifn, Nat.add_zero]
          have hupd : updW ⟨"", w, (t : Int) * w - ws.sum * (selCount ws p t : Int), false⟩
              = ⟨"", w, ((t : Int) * w - ws.sum * (selCount ws p t : Int)) + w, false⟩ := by
            simp [updW]
          rw [Option.map_some', hupd]
          rw [Option.some.injEq, WItem.mk.injEq]
          refine ⟨rfl, rfl, ?_, rfl⟩
          push_cast
          ring

/-- The run registry is never empty and never has a disabled item. -/
theorem wrrRun_nodis (ws : List Int) (hne : ws ≠ []) (t : Nat) :
    (wrrRun ws t).items ≠ [] ∧ ∀ e ∈ (wrrRun ws t).items, e.disabled = false := by
  obtain ⟨_, hlen, hitems⟩ := wrrRun_items ws hne t
  constructor
  · intro h0
    have hl0 := congrArg List.length h0
    rw [hlen] at hl0
    simp only [List.length_nil] at hl0
    exact hne (List.length_eq_zero.mp hl0)
  · intro e he
    obtain ⟨p, hp⟩ := List.mem_iff_getElem?.mp he
    have hplt : p < (wrrRun ws t).items.length := (List.getElem?_eq_some.mp hp).1
    rw [hlen] at hplt
    have h5 := hitems p (ws.getD p 0) (getD_getElem? ws p hplt)
    rw [hp] at h5
    rw [Option.some.inj h5]

/-- The `t`-th selection is in range, and the selected item's updated current
weight is maximal among all items. -/
theorem wrrSel_spec (ws : List Int) (hne : ws ≠ []) (t : Nat) :
    wrrSelIdx ws t < ws.length ∧
    ∀ (p : Nat), p < ws.length →
      (t : Int) * ws.getD p 0 - ws.sum * (selCount ws p t : Int) + ws.getD p 0 ≤
      (t : Int) * ws.getD (wrrSelIdx ws t) 0
        - ws.sum * (selCount ws (wrrSelIdx ws t) t : Int)
        + ws.getD (wrrSelIdx ws t) 0 := by
  obtain ⟨htot, hlen, hitems⟩ := wrrRun_items ws hne t
  obtain ⟨hlne, hnd⟩ := wrrRun_nodis ws hne t
  obtain ⟨j, ej, hpj, hSel, hub, hstrict⟩ := select_nodis (wrrRun ws t) hlne hnd
  have hselIdx : wrrSelIdx ws t = j := by
    unfold wrrSelIdx
    rw [hSel]
  have hjlt : j < ws.length := by
    have h6 := (List.getElem?_eq_some.mp hpj).1
    rw [hlen] at h6
    exact h6
  have hej : ej = ⟨"", ws.getD j 0,
      (t : Int) * ws.getD j 0 - ws.sum * (selCount ws j t : Int), false⟩ := by
    have h5 := hitems j (ws.getD j 0) (getD_getElem? ws j hjlt)
    rw [hpj] at h5
    exact Option.some.inj h5
  rw [hselIdx]
  refine ⟨hjlt, ?_⟩
  intro p hp
  have hrecp := hitems p (ws.getD p 0) (getD_getElem? ws p hp)
  have h7 := hub p _ hrecp
  rw [hej] at h7
  dsimp only at h7
  exact h7

theorem wrrSel_lt (ws : List Int) (hne : ws ≠ []) (t : Nat) :
    wrrSelIdx ws t < ws.length :=
  (wrrSel_spec ws hne t).1

/-- Exactly one item is selected per step: the per-item counts over the
first `t` steps sum to `t`. -/
theorem sum_selCount (ws : List Int) (hne : ws ≠ []) (t : Nat) :
    (∑ p ∈ Finset.range ws.length, selCount ws p t) = t := by
  have h := Finset.card_eq_sum_card_fiberwise
    (f := fun s => wrrSelIdx ws s) (s := Finset.range t) (t := Finset.range ws.length)
    (fun x _ => Finset.mem_range.mpr (wrrSel_lt ws hne x))
  rw [Finset.card_range] at h
  unfold selCount
  exact h.symm

/-- Within the first `totalWeight` selections, no item is selected more often
than its configured weight. -/
theorem selCount_le (ws : List Int) (hpos : ∀ w ∈ ws, 0 < w) (hne : ws ≠ []) :
    ∀ t, t ≤ ws.sum.toNat → ∀ (p : Nat), p < ws.length →
      (selCount ws p t : Int) ≤ ws.getD p 0 := by
  have hWpos : 0 < ws.sum := List.sum_pos ws hpos hne
  have hWN : ((ws.sum.toNat : Nat) : Int) = ws.sum := Int.toNat_of_nonneg (le_of_lt hWpos)
  intro t
  induction t with
  | zero =>
      intro _ p hp
      have hwpos : 0 < ws.getD p 0 :=
        hpos _ (List.getElem?_mem (getD_getElem? ws p hp))
      have hc0 : selCount ws p 0 = 0 := rfl
      rw [hc0]
      push_cast
      linarith
  | succ t ih =>
      intro hle p hp
      have ht : t ≤ ws.sum.toNat := Nat.le_of_succ_le hle
      rw [selCount_succ]
      by_cases hsel : wrrSelIdx ws t = p
      · rw [if_pos hsel]
        have hcle := ih ht p hp
        rcases lt_or_eq_of_le hcle with hlt | heqc
        · push_cast
          omega
        · exfalso
          have hub := (wrrSel_spec ws hne t).2
          have hcast : (∑ q ∈ Finset.range ws.length, ((selCount ws q t : Nat) : Int))
              = (t : Int) := by
            rw [← Nat.cast_sum, sum_selCount ws hne t]
          have hsum : (∑ q ∈ Finset.range ws.length,
              ((t : Int) * ws.getD q 0 - ws.sum * (selCount ws q t : Int)
                + ws.getD q 0)) = ws.sum := by
            have h1 : (∑ q ∈ Finset.range ws.length,
                ((t : Int) * ws.getD q 0 - ws.sum * (selCount ws q t : Int)
                  + ws.getD q 0))
                = ((t : Int) * (∑ q ∈ Finset.range ws.length, ws.getD q 0)
                    - ws.sum * (∑ q ∈ Finset.range ws.length, ((selCount ws q t : Nat) : Int)))
                  + (∑ q ∈ Finset.range ws.length, ws.getD q 0) := by
              rw [Finset.mul_sum, Finset.mul_sum, ← Finset.sum_sub_distrib,
                ← Finset.sum_add_distrib]
            rw [h1, sum_range_getD, hcast]
            ring
          have hexq : ∃ q ∈ Finset.range ws.length, (0 : Int) <
              (t : Int) * ws.getD q 0 - ws.sum * (selCount ws q t : Int) + ws.getD q 0 := by
            by_contra hall
            push_neg at hall
            have hle0 : (∑ q ∈ Finset.range ws.length,
                ((t : Int) * ws.getD q 0 - ws.sum * (selCount ws q t : Int)
                  + ws.getD q 0)) ≤ ∑ q ∈ Finset.range ws.length, (0 : Int) :=
              Finset.sum_le_sum (fun i hi => hall i hi)
            rw [hsum, Finset.sum_const, smul_zero] at hle0
            linarith
          obtain ⟨q, hqmem, hqpos⟩ := hexq
          have hq := hub q (Finset.mem_range.mp hqmem)
          rw [hsel] at hq
          have hwpos : 0 < ws.getD p 0 :=
            hpos _ (List.getElem?_mem (getD_getElem? ws p hp))
          have ht1 : (t : Int) + 1 ≤ ws.sum := by
            have h8 : ((t + 1 : Nat) : Int) ≤ ((ws.sum.toNat : Nat) : Int) :=
              Nat.cast_le.mpr hle
            rw [hWN] at h8
            push_cast at h8
            linarith
          have hup : (t : Int) * ws.getD p 0 - ws.sum * (selCount ws p t : Int)
              + ws.getD p 0 ≤ 0 := by
            rw [heqc]
            have h9 := mul_le_mul_of_nonneg_right ht1 (le_of_lt hwpos)
            linarith
          linarith
      · rw [if_neg hsel, Nat.add_zero]
        exact ih ht p hp

/-- After exactly `totalWeight` selections, every item has been selected
exactly its configured weight many times. -/
theorem selCount_exact (ws : List Int) (hpos : ∀ w ∈ ws, 0 < w) (hne : ws ≠ [])
    (p : Nat) (hp : p < ws.length) :
    ((selCount ws p ws.sum.toNat : Nat) : Int) = ws.getD p 0 := by
  have hWpos : 0 < ws.sum := List.sum_pos ws hpos hne
  have hWN : ((ws.sum.toNat : Nat) : Int) = ws.sum := Int.toNat_of_nonneg (le_of_lt hWpos)
  have hle := selCount_le ws hpos hne ws.sum.toNat (le_refl _)
  have hsumc : (∑ q ∈ Finset.range ws.length, ((selCount ws q ws.sum.toNat : Nat) : Int))
      = ws.sum := by
    rw [← Nat.cast_sum, sum_selCount ws hne _, hWN]
  by_contra hne2
  have hlt : ((selCount ws p ws.sum.toNat : Nat) : Int) < ws.getD p 0 :=
    lt_of_le_of_ne (hle p hp) hne2
  have hstrict := Finset.sum_lt_sum
    (fun i hi => hle i (Finset.mem_range.mp hi))
    ⟨p, Finset.mem_range.mpr hp, hlt⟩
  rw [hsumc, sum_range_getD] at hstrict
  exact lt_irrefl _ hstrict


/-- After `totalWeight` selections the registry returns to its initial
state: every current weight is back to 0. -/
theorem wrrRun_period_base (ws : List Int) (hpos : ∀ w ∈ ws, 0 < w) (hne : ws ≠ []) :
    wrrRun ws ws.sum.toNat = wrrRun ws 0 := by
  have hWpos : 0 < ws.sum := List.sum_pos ws hpos hne
  have hWN : ((ws.sum.toNat : Nat) : Int) = ws.sum := Int.toNat_of_nonneg (le_of_lt hWpos)
  obtain ⟨htotW, hlenW, hitemsW⟩ := wrrRun_items ws hne ws.sum.toNat
  obtain ⟨htot0, hlen0, hitems0⟩ := wrrRun_items ws hne 0
  have hitems : (wrrRun ws ws.sum.toNat).items = (wrrRun ws 0).items := by
    apply List.ext_getElem?
    intro i
    by_cases hi : i < ws.length
    · have hw := getD_getElem? ws i hi
      rw [hitemsW i _ hw, hitems0 i _ hw]
      rw [Option.some.injEq, WItem.mk.injEq]
      refine ⟨rfl, rfl, ?_, rfl⟩
      rw [selCount_exact ws hpos hne i hi, hWN]
      have hc0 : selCount ws i 0 = 0 := rfl
      rw [hc0]
      push_cast
      ring
    · have h1 : (wrrRun ws ws.sum.toNat).items[i]? = none := by
        rw [List.getElem?_eq_none]
        rw [hlenW]
        omega
      have h2 : (wrrRun ws 0).items[i]? = none := by
        rw [List.getElem?_eq_none]
        rw [hlen0]
        omega
      rw [h1, h2]
  have htt : (wrrRun ws ws.sum.toNat).totalConfigWeight
      = (wrrRun ws 0).totalConfigWeight := by
    rw [htotW, htot0]
  calc wrrRun ws ws.sum.toNat
      = ⟨(wrrRun ws ws.sum.toNat).items,
          (wrrRun ws ws.sum.toNat).totalConfigWeight⟩ := rfl
    _ = ⟨(wrrRun ws 0).items, (wrrRun ws 0).totalConfigWeight⟩ := by
          rw [hitems, htt]
    _ = wrrRun ws 0 := rfl

/-- The state sequence is periodic with period `totalWeight`. -/
theorem wrrRun_periodic (ws : List Int) (hpos : ∀ w ∈ ws, 0 < w) (hne : ws ≠ [])
    (t : Nat) : wrrRun ws (t + ws.sum.toNat) = wrrRun ws t := by
  induction t with
  | zero =>
      rw [Nat.zero_add]
      exact wrrRun_period_base ws hpos hne
  | succ t ih =>
      have hidx : t + 1 + ws.sum.toNat = (t + ws.sum.toNat) + 1 := by omega
      rw [hidx]
      show stepWRR (wrrRun ws (t + ws.sum.toNat)) = stepWRR (wrrRun ws t)
      rw [ih]

/-- The selection sequence is periodic with period `totalWeight`. -/
theorem wrrSelIdx_periodic (ws : List Int) (hpos : ∀ w ∈ ws, 0 < w) (hne : ws ≠ [])
    (t : Nat) : wrrSelIdx ws (t + ws.sum.toNat) = wrrSelIdx ws t := by
  unfold wrrSelIdx
  rw [wrrRun_periodic ws hpos hne t]

/-- C1: WRR fairness.  For every nonempty list of positive configured weights
(items registered in order, all starting at current weight 0 and never
disabled), in every window of `sum of weights` consecutive `Select()` calls —
starting at an arbitrary call index `k` — item `i` is selected exactly `w_i`
times. -/
theorem wrr_fairness (ws : List Int) (hpos : ∀ w ∈ ws, 0 < w) (hne : ws ≠ [])
    (k i : Nat) (w : Int) (hi : ws[i]? = some w) :
    (((Finset.range ws.sum.toNat).filter
        (fun t => wrrSelIdx ws (k + t) = i)).card : Int) = w := by
  have hilt : i < ws.length := (List.getElem?_eq_some.mp hi).1
  have hgd : ws.getD i 0 = w := by
    have h1 := getD_getElem? ws i hilt
    rw [hi] at h1
    exact (Option.some.inj h1).symm
  have hcard : ∀ m : Nat,
      ((Finset.range ws.sum.toNat).filter (fun t => wrrSelIdx ws (m + t) = i)).card
        = ∑ t ∈ Finset.range ws.sum.toNat,
            (if wrrSelIdx ws (m + t) = i then (1 : Nat) else 0) := by
    intro m
    rw [Finset.card_filter]
  have hshift : ∀ m : Nat,
      ((Finset.range ws.sum.toNat).filter (fun t => wrrSelIdx ws (m + t) = i)).card
        = ((Finset.range ws.sum.toNat).filter (fun t => wrrSelIdx ws (0 + t) = i)).card := by
    intro m
    induction m with
    | zero => rfl
    | succ m ih =>
        rw [← ih, hcard, hcard]
        have h1 := Finset.sum_range_succ'
          (fun t => if wrrSelIdx ws (m + t) = i then (1 : Nat) else 0) ws.sum.toNat
        have h2 := Finset.sum_range_succ
          (fun t => if wrrSelIdx ws (m + t) = i then (1 : Nat) else 0) ws.sum.toNat
        simp only [Nat.add_zero] at h1
        have hper : wrrSelIdx ws (m + ws.sum.toNat) = wrrSelIdx ws m := by
          have h3 := wrrSelIdx_periodic ws hpos hne m
          exact h3
        have hidx : ∀ t : Nat, m + 1 + t = m + (t + 1) := by omega
        have hsame : (∑ t ∈ Finset.range ws.sum.toNat,
            (if wrrSelIdx ws (m + 1 + t) = i then (1 : Nat) else 0))
            = ∑ t ∈ Finset.range ws.sum.toNat,
                (if wrrSelIdx ws (m + (t + 1)) = i then (1 : Nat) else 0) := by
          apply Finset.sum_congr rfl
          intro t _
          rw [hidx t]
        rw [hsame]
        rw [hper] at h2
        omega
  rw [hshift k]
  have hzero : ((Finset.range ws.sum.toNat).filter
      (fun t => wrrSelIdx ws (0 + t) = i)).card = selCount ws i ws.sum.toNat := by
    unfold selCount
    apply congrArg
    apply Finset.filter_congr
    intro t _
    rw [Nat.zero_add]
  rw [hzero, selCount_exact ws hpos hne i hilt, hgd]

/-- Witness for C1 at weights `[3, 1]`, an unaligned window starting at call
5, and item index 1. -/
theorem wrr_fairness_witness :
    (∀ w ∈ [(3 : Int), 1], 0 < w) ∧ ([(3 : Int), 1] ≠ []) ∧
    [(3 : Int), 1][1]? = some 1 ∧
    (((Finset.range ([(3 : Int), 1].sum.toNat)).filter
        (fun t => wrrSelIdx [(3 : Int), 1] (5 + t) = 1)).card : Int) = 1 :=
  ⟨by decide, by decide, by decide,
    wrr_fairness [(3 : Int), 1] (by decide) (by decide) 5 1 1 (by decide)⟩


/-- C9: WRR tie-break determinism.  `Select` is a pure function of the
registry state; on a registry with no disablement the selected index `j`
carries the maximum updated current weight, every earlier item's updated
weight being strictly smaller (first item wins ties, deterministic
left-to-right scan).  In particular, on two items of equal weight 1 starting
from current weight 0, consecutive `Select()` calls strictly alternate
starting with the first-registered item: the `n`-th call picks index
`n % 2`. -/
theorem wrr_tiebreak_deterministic :
    (∀ (s : WRRSelector), (∀ e ∈ s.items, e.disabled = false) →
      ∀ (j : Nat) (it : WItem) (s2 : WRRSelector), s.Select = some (j, it, s2) →
        ∃ ej, s.items[j]? = some ej ∧
          (∀ (p : Nat) (e : WItem), s.items[p]? = some e →
            e.currentWeight + e.configWeight ≤ ej.currentWeight + ej.configWeight) ∧
          (∀ (p : Nat) (e : WItem), p < j → s.items[p]? = some e →
            e.currentWeight + e.configWeight < ej.currentWeight + ej.configWeight)) ∧
    (∀ n : Nat, wrrSelIdx [1, 1] n = n % 2) := by
  constructor
  · intro s hnd j it s2 hsel
    have hne : s.items ≠ [] := by
      intro h0
      have hlen : s.items.length = 0 := by rw [h0]; rfl
      have : s.Select = none := by
        unfold WRRSelector.Select
        rw [if_pos hlen]
      rw [this] at hsel
      exact Option.noConfusion hsel
    obtain ⟨j0, ej, hpj, hSel, hub, hstrict⟩ := select_nodis s hne hnd
    have hj : j = j0 := by
      have h1 := hsel.symm.trans hSel
      exact congrArg (fun x => x.1) (Option.some.inj h1)
    subst hj
    exact ⟨ej, hpj, hub, hstrict⟩
  · have h0 : wrrSelIdx [1, 1] 0 = 0 := by decide
    have h1 : wrrSelIdx [1, 1] 1 = 1 := by decide
    have hper : wrrRun [1, 1] 2 = wrrRun [1, 1] 0 := by decide
    have hper2 : ∀ n : Nat, wrrRun [1, 1] (n + 2) = wrrRun [1, 1] n := by
      intro n
      induction n with
      | zero => exact hper
      | succ n ih =>
          show stepWRR (wrrRun [1, 1] (n + 2)) = stepWRR (wrrRun [1, 1] n)
          rw [ih]
    intro n
    induction n using Nat.strong_induction_on with
    | _ n ih =>
        rcases n with _ | (_ | m)
        · exact h0
        · exact h1
        · have hs : wrrSelIdx [1, 1] (m + 2) = wrrSelIdx [1, 1] m := by
            unfold wrrSelIdx
            rw [hper2 m]
          have hm := ih m (by omega)
          show wrrSelIdx [1, 1] (m + 2) = (m + 2) % 2
          rw [hs, hm]
          omega

/-- Witness for C9: the tie-break description applied to a concrete
single-item registry, and the alternation fact at call 5. -/
theorem wrr_tiebreak_deterministic_witness :
    (∀ e ∈ (mkSelector [⟨"x", 1, 0, false⟩]).items, e.disabled = false) ∧
    ((mkSelector [⟨"x", 1, 0, false⟩]).Select
      = some (0, ⟨"x", 1, 0, false⟩, ⟨[⟨"x", 1, 0, false⟩], 1⟩)) ∧
    wrrSelIdx [1, 1] 5 = 5 % 2 ∧
    (∃ ej, (mkSelector [⟨"x", 1, 0, false⟩]).items[0]? = some ej ∧
      (∀ (p : Nat) (e : WItem),
        (mkSelector [⟨"x", 1, 0, false⟩]).items[p]? = some e →
          e.currentWeight + e.configWeight ≤ ej.currentWeight + ej.configWeight) ∧
      (∀ (p : Nat) (e : WItem), p < 0 →
        (mkSelector [⟨"x", 1, 0, false⟩]).items[p]? = some e →
          e.currentWeight + e.configWeight < ej.currentWeight + ej.configWeight)) :=
  ⟨by decide, by decide, wrr_tiebreak_deterministic.2 5,
    wrr_tiebreak_deterministic.1 _ (by decide) 0 ⟨"x", 1, 0, false⟩
      ⟨[⟨"x", 1, 0, false⟩], 1⟩ (by decide)⟩


end GuraBot
